import Mathlib

/-
Verification of the tabular-data cleaning pipeline in `1_pandas.py`.

The script builds one in-memory table and pushes it through a linear
sequence of dataframe-library operations (fill missing values, drop
duplicates, bin, merge, melt, IQR-based outlier replacement, sample,
serialize).  Each operation used by the claims is embedded below as an
executable Lean definition over rationals (`ℚ`) and lists; numeric
columns are `List (Option ℚ)` where `none` is the missing-value
sentinel (NaN).  Quantiles use linear interpolation between order
statistics, the default estimation method of the library's
`quantile`/`median`.
-/

/-- Row of the script's initial table (source lines 8-13): Name, Age,
City, Salary.  Age and Salary are nullable numeric columns (the script
stores NaN/None there); Name and City are total. -/
structure Row where
  name : String
  age : Option ℚ
  city : String
  salary : Option ℚ
  deriving DecidableEq, Repr

/-- The literal table constructed at source lines 8-13. -/
def initialRows : List Row :=
  [⟨"Alice", some 25, "New York", some 50000⟩,
   ⟨"Bob", none, "Los Angeles", some 60000⟩,
   ⟨"Charlie", some 35, "Chicago", some 70000⟩,
   ⟨"David", some 40, "Chicago", some 80000⟩,
   ⟨"Emma", some 28, "New York", none⟩]

/-- Non-missing entries of a nullable column, in order. -/
def nonMissing (c : List (Option ℚ)) : List ℚ := c.filterMap id

/-- Arithmetic mean of a list of rationals (`Series.mean` over the
non-missing entries). -/
def mean (l : List ℚ) : ℚ := l.sum / l.length

/-- Quantile with linear interpolation between order statistics, the
library's default method: sort ascending, take position `h = (n-1)·q`,
and interpolate between the order statistics at `⌊h⌋` and `⌊h⌋+1`.
Empty input yields 0 (the script never queries an empty column). -/
def quantile (l : List ℚ) (q : ℚ) : ℚ :=
  let s := List.insertionSort (· ≤ ·) l
  let h : ℚ := ((s.length : ℚ) - 1) * q
  let k : ℕ := (⌊h⌋).toNat
  let fr : ℚ := h - (⌊h⌋ : ℚ)
  let a := s.getD k 0
  let b := s.getD (min (k + 1) (s.length - 1)) 0
  a + fr * (b - a)

/-- Median, i.e. the 0.5 quantile (`Series.median`). -/
def median (l : List ℚ) : ℚ := quantile l (1/2)

/-- Fill step for Age (source line 28): every missing Age becomes the
mean of the currently non-missing Ages; other fields unchanged. -/
def fillAge (t : List Row) : List Row :=
  let v := mean (nonMissing (t.map Row.age))
  t.map (fun r => { r with age := some (r.age.getD v) })

/-- Fill step for Salary (source line 29): every missing Salary becomes
the median of the currently non-missing Salaries; other fields
unchanged. -/
def fillSalary (t : List Row) : List Row :=
  let v := median (nonMissing (t.map Row.salary))
  t.map (fun r => { r with salary := some (r.salary.getD v) })

/-- The table after both fill steps (state after source line 29). -/
def filledRows : List Row := fillSalary (fillAge initialRows)

/-- Drop every row that has a missing entry (source line 33,
`df.dropna()`).  In this model only Age and Salary are nullable. -/
def dropna (t : List Row) : List Row :=
  t.filter (fun r => r.age.isSome && r.salary.isSome)

/-- Binning (source line 95, `pd.cut(..., right=False)`): index of the
first half-open interval `[bins[i], bins[i+1])` that contains `x`, if
any.  With strictly increasing boundaries that interval is unique. -/
def binIndex (x : ℚ) : List ℚ → Option ℕ
  | b₀ :: b₁ :: rest =>
    if b₀ ≤ x ∧ x < b₁ then some 0
    else (binIndex x (b₁ :: rest)).map (· + 1)
  | _ => none

/-- Binning with labels: map the value's interval index to its label;
values outside all intervals get the missing label `none`. -/
def cut (x : ℚ) (bins : List ℚ) (labels : List String) : Option String :=
  (binIndex x bins).bind (fun i => labels[i]?)

/-- The bin boundaries of source line 93. -/
def ageBins : List ℚ := [0, 25, 35, 50]

/-- The bin labels of source line 94. -/
def ageGroupLabels : List String := ["Young", "Adult", "Senior"]

/-- Left join (source line 107, `pd.merge(..., how="left")`): every
left row is paired with each right row whose key equals the left row's
key; a left row with no match survives once, paired with the missing
placeholder `none`. -/
def leftJoin {α β K : Type} [DecidableEq K] (l : List α) (r : List β)
    (kl : α → K) (kr : β → K) : List (α × Option β) :=
  l.flatMap (fun a =>
    if (r.filter (fun b => decide (kr b = kl a))).isEmpty then [(a, none)]
    else (r.filter (fun b => decide (kr b = kl a))).map (fun b => (a, some b)))

/-- Wide-to-long reshape (source line 118, `df.melt`): for each value
column (name, projection) and each input row, emit one output row
(identifier, column name, column value); blocks are emitted column by
column, as the library does. -/
def melt {ρ ι μ : Type} (rows : List ρ) (idv : ρ → ι)
    (valueVars : List (String × (ρ → μ))) : List (ι × String × μ) :=
  valueVars.flatMap (fun v => rows.map (fun r => (idv r, v.1, v.2 r)))

/-- Worker for `dropDuplicates`: walk the list keeping each row not
already seen, threading the set of seen rows. -/
def dropDupAux {α : Type} [DecidableEq α] (seen : List α) : List α → List α
  | [] => []
  | x :: xs => if x ∈ seen then dropDupAux seen xs else x :: dropDupAux (x :: seen) xs

/-- Deduplication (source line 44, `drop_duplicates()`, default
`keep="first"`): remove every row equal to an earlier row. -/
def dropDuplicates {α : Type} [DecidableEq α] (l : List α) : List α :=
  dropDupAux [] l

/-- Specification-level deduplication, written from the spec's words:
keep the first occurrence of each distinct row and discard every later
equal row.  Used to compare `dropDuplicates` against the spec. -/
def keepFirstOccurrences {α : Type} [DecidableEq α] : List α → List α
  | [] => []
  | x :: xs => x :: keepFirstOccurrences (xs.filter (fun y => decide (y ≠ x)))
  termination_by l => l.length
  decreasing_by simp only [List.length_cons]; exact Nat.lt_succ_of_le (List.length_filter_le _ _)

/-- First quartile (source line 134). -/
def q1 (l : List ℚ) : ℚ := quantile l (1/4)

/-- Third quartile (source line 135). -/
def q3 (l : List ℚ) : ℚ := quantile l (3/4)

/-- Interquartile range (source line 136). -/
def iqr (l : List ℚ) : ℚ := q3 l - q1 l

/-- Lower detection bound `Q1 - 1.5*IQR` (source line 137). -/
def lowBound (l : List ℚ) : ℚ := q1 l - 3/2 * iqr l

/-- Upper detection bound `Q3 + 1.5*IQR` (source line 137). -/
def highBound (l : List ℚ) : ℚ := q3 l + 3/2 * iqr l

/-- Outlier condition of source line 137: strictly below the lower
bound or strictly above the upper bound of the column `l`. -/
def isOutlier (l : List ℚ) (x : ℚ) : Prop := x < lowBound l ∨ highBound l < x

instance (l : List ℚ) (x : ℚ) : Decidable (isOutlier l x) := by
  unfold isOutlier; infer_instance

/-- Outlier replacement (source lines 142-143): every entry flagged by
the outlier condition of the original column is overwritten with the
median of the original column; other entries are unchanged. -/
def replaceOutliers (l : List ℚ) : List ℚ :=
  l.map (fun x => if isOutlier l x then median l else x)

/-- Error raised when a sample is larger than the population. -/
inductive SampleError where
  | rangeError
  deriving DecidableEq, Repr

/-- Random sampling without replacement (source line 160,
`df.sample(n=2)`).  The library's random draw is abstracted as `ord`, a
permutation of the row positions `0..len-1`: the sample is the first
`n` positions of that permutation, and a request larger than the table
fails. -/
def sample {α : Type} (l : List α) (n : ℕ) (ord : List ℕ) :
    Except SampleError (List ℕ) :=
  if n ≤ l.length then Except.ok (ord.take n) else Except.error SampleError.rangeError

/-- Cell of the saved table (source lines 168-169): a text cell, an
integer cell, or a floating-point cell held as the exact rational
`num/den` (every float the script saves is a whole number, `den = 1`).
Dates are saved in their ISO text form. -/
inductive Cell where
  | s (v : String)
  | i (v : ℤ)
  | f (num : ℤ) (den : ℕ)
  deriving DecidableEq, Repr

/-- Decimal digit as a character. -/
def digitChar (d : ℕ) : Char :=
  if d = 0 then '0' else if d = 1 then '1' else if d = 2 then '2'
  else if d = 3 then '3' else if d = 4 then '4' else if d = 5 then '5'
  else if d = 6 then '6' else if d = 7 then '7' else if d = 8 then '8' else '9'

/-- Digits of a natural number, accumulated most significant first;
the first argument is fuel bounding the digit count. -/
def natDigitsAux : ℕ → ℕ → List Char → List Char
  | 0, _, acc => acc
  | fuel + 1, n, acc =>
    if n = 0 then acc else natDigitsAux fuel (n / 10) (digitChar (n % 10) :: acc)

/-- Decimal rendering of a natural number. -/
def natDigits (n : ℕ) : List Char := if n = 0 then ['0'] else natDigitsAux n n []

/-- Decimal rendering of an integer. -/
def intChars : ℤ → List Char
  | Int.ofNat m => natDigits m
  | Int.negSucc m => '-' :: natDigits (m + 1)

/-- Text rendering of one cell, as the text serializer writes it:
strings verbatim, integers in decimal, whole floats with a trailing
`.0` (the fallback `num/den` form is never produced by the script's
table). -/
def renderCell : Cell → List Char
  | Cell.s v => v.data
  | Cell.i n => intChars n
  | Cell.f num den =>
    if den = 1 then intChars num ++ ['.', '0']
    else intChars num ++ '/' :: natDigits den

/-- Join chunks with a separator character. -/
def joinWith (sep : Char) : List (List Char) → List Char
  | [] => []
  | [g] => g
  | g :: gs => g ++ sep :: joinWith sep gs

/-- Split a character list at every occurrence of the separator. -/
def splitOnChar (sep : Char) : List Char → List (List Char)
  | [] => [[]]
  | ch :: rest =>
    match splitOnChar sep rest with
    | g :: gs => if ch = sep then [] :: g :: gs else (ch :: g) :: gs
    | [] => if ch = sep then [[], []] else [[ch]]

/-- Text serialization (source line 168, `to_csv(..., index=False)`):
one header line of comma-separated column names, then one
comma-separated line per row, with no row-index column. -/
def toCsv (header : List String) (rows : List (List Cell)) : List Char :=
  joinWith '\n'
    (joinWith ',' (header.map String.data) :: rows.map (fun r => joinWith ',' (r.map renderCell)))

/-- Parse an unsigned decimal numeral; `none` unless the text is a
nonempty string of digits. -/
def parseNatChars (cs : List Char) : Option ℕ :=
  if cs.isEmpty then none
  else cs.foldl (fun acc ch =>
    acc.bind (fun v =>
      if '0' ≤ ch ∧ ch ≤ '9' then some (v * 10 + (ch.toNat - 48)) else none)) (some 0)

/-- Parse a signed decimal numeral. -/
def parseIntChars : List Char → Option ℤ
  | '-' :: rest => (parseNatChars rest).map (fun v => -(v : ℤ))
  | cs => (parseNatChars cs).map (fun v => (v : ℤ))

/-- Type inference of the text loader on one comma-separated field: a
signed numeral is an integer cell; a numeral with a fractional part of
zeros is the whole float it denotes; anything else stays text. -/
def inferCell (cs : List Char) : Cell :=
  match parseIntChars cs with
  | some v => Cell.i v
  | none =>
    match splitOnChar '.' cs with
    | [a, b] =>
      match parseIntChars a, parseNatChars b with
      | some va, some 0 => Cell.f va 1
      | _, _ => Cell.s (String.mk cs)
    | _ => Cell.s (String.mk cs)

/-- Text loader (`pd.read_csv` on a file written by `toCsv`): split
into lines, read the first as the header, and infer each remaining
field's type. -/
def parseCsv (cs : List Char) : Option (List String × List (List Cell)) :=
  match splitOnChar '\n' cs with
  | [] => none
  | h :: rs =>
    some ((splitOnChar ',' h).map String.mk,
      rs.map (fun r => (splitOnChar ',' r).map inferCell))

/-- Token of the native binary serialization: a tagged primitive. -/
inductive PTok where
  | n (v : ℕ)
  | z (v : ℤ)
  | c (v : Char)
  deriving DecidableEq, Repr

/-- Binary encoding of one cell: a tag, then the payload (strings are
length-prefixed character runs). -/
def encodeCell : Cell → List PTok
  | Cell.s v => PTok.n 0 :: PTok.n v.data.length :: v.data.map PTok.c
  | Cell.i m => [PTok.n 1, PTok.z m]
  | Cell.f num den => [PTok.n 2, PTok.z num, PTok.n den]

/-- Binary encoding of one row: cell count, then the encoded cells. -/
def encodeRow (r : List Cell) : List PTok :=
  PTok.n r.length :: r.flatMap encodeCell

/-- Binary serialization (source line 169, `to_pickle`): row count,
then the encoded rows. -/
def toPickle (rows : List (List Cell)) : List PTok :=
  PTok.n rows.length :: rows.flatMap encodeRow

/-- Decode a run of `k` character tokens. -/
def decodeChars : ℕ → List PTok → Option (List Char × List PTok)
  | 0, ts => some ([], ts)
  | k + 1, PTok.c ch :: ts => (decodeChars k ts).map (fun p => (ch :: p.1, p.2))
  | _ + 1, _ => none

/-- Decode one cell from the token stream. -/
def decodeCell : List PTok → Option (Cell × List PTok)
  | PTok.n 0 :: PTok.n len :: ts =>
    (decodeChars len ts).map (fun p => (Cell.s (String.mk p.1), p.2))
  | PTok.n 1 :: PTok.z m :: ts => some (Cell.i m, ts)
  | PTok.n 2 :: PTok.z num :: PTok.n den :: ts => some (Cell.f num den, ts)
  | _ => none

/-- Decode `k` consecutive cells. -/
def decodeCells : ℕ → List PTok → Option (List Cell × List PTok)
  | 0, ts => some ([], ts)
  | k + 1, ts =>
    (decodeCell ts).bind (fun p => (decodeCells k p.2).map (fun q => (p.1 :: q.1, q.2)))

/-- Decode `k` consecutive rows. -/
def decodeRows : ℕ → List PTok → Option (List (List Cell) × List PTok)
  | 0, ts => some ([], ts)
  | k + 1, PTok.n len :: ts =>
    (decodeCells len ts).bind (fun p =>
      (decodeRows k p.2).map (fun q => (p.1 :: q.1, q.2)))
  | _ + 1, _ => none

/-- Binary loader (`pd.read_pickle` on a stream written by
`toPickle`): read the row count, the rows, and require that the stream
is exhausted. -/
def fromPickle (ts : List PTok) : Option (List (List Cell)) :=
  match ts with
  | PTok.n len :: ts =>
    (decodeRows len ts).bind (fun p => if p.2.isEmpty then some p.1 else none)
  | _ => none

/-- Column names of the table saved at source line 168, in the frame's
column order after all pipeline steps. -/
def csvHeader : List String :=
  ["Employee Name", "Age", "City", "Annual Salary", "Salary After Tax",
   "City Code", "Age Group", "Join Date", "Year Joined"]

/-- The rows of the table at the moment the script saves it (source
line 168): names; Ages filled with the mean and cast to integer;
cities; Annual Salary after median-fill — the IQR step replaces
nothing, since every value lies within its bounds 45000..85000
(proven in the round-trip theorem below); Salary After Tax = 0.8 x
Annual Salary (source line 77); lexicographic City Codes; binned Age
Group labels; ISO Join Dates; extracted Year Joined. -/
def savedRows : List (List Cell) :=
  [[Cell.s "Alice", Cell.i 25, Cell.s "New York", Cell.f 50000 1, Cell.f 40000 1,
    Cell.i 2, Cell.s "Adult", Cell.s "2023-01-15", Cell.i 2023],
   [Cell.s "Bob", Cell.i 32, Cell.s "Los Angeles", Cell.f 60000 1, Cell.f 48000 1,
    Cell.i 1, Cell.s "Adult", Cell.s "2022-06-10", Cell.i 2022],
   [Cell.s "Charlie", Cell.i 35, Cell.s "Chicago", Cell.f 70000 1, Cell.f 56000 1,
    Cell.i 0, Cell.s "Senior", Cell.s "2021-12-05", Cell.i 2021],
   [Cell.s "David", Cell.i 40, Cell.s "Chicago", Cell.f 80000 1, Cell.f 64000 1,
    Cell.i 0, Cell.s "Senior", Cell.s "2020-03-22", Cell.i 2020],
   [Cell.s "Emma", Cell.i 28, Cell.s "New York", Cell.f 65000 1, Cell.f 52000 1,
    Cell.i 2, Cell.s "Adult", Cell.s "2019-07-10", Cell.i 2019]]

/-- The outlier report of source line 139: the entries of the column
flagged by the outlier condition, in order. -/
def detectOutliers (l : List ℚ) : List ℚ :=
  l.filter (fun x => decide (isOutlier l x))

/-- Column witnessing that re-running outlier detection after
replacement can still flag a value: its single extreme entry 100 is
flagged and replaced, after which 19/5 falls outside the recomputed
bounds although the recomputed IQR is positive. -/
def cexList : List ℚ := [0, 1, 0, 1, 0, 1, 19/5, 100]

/-- Row of the auxiliary department table (source lines 103-106). -/
structure DeptRow where
  name : String
  dept : String
  deriving DecidableEq, Repr

/-- The auxiliary table merged into the frame at source line 107. -/
def extraRows : List DeptRow :=
  [⟨"Alice", "HR"⟩, ⟨"Bob", "IT"⟩, ⟨"Charlie", "Finance"⟩]

lemma chainLt_head_le {b : ℚ} {t : List ℚ} (hc : (b :: t).Chain' (· < ·))
    {j : ℕ} {a : ℚ} (h : (b :: t)[j]? = some a) : b ≤ a := by
  have hp : (b :: t).Pairwise (· < ·) := List.chain'_iff_pairwise.mp hc
  cases j with
  | zero => simp only [List.getElem?_cons_zero, Option.some.injEq] at h; exact le_of_eq h
  | succ j =>
    rw [List.getElem?_eq_some] at h
    obtain ⟨hj, rfl⟩ := h
    exact le_of_lt (List.pairwise_iff_getElem.mp hp 0 (j + 1) (by omega) hj (by omega))

lemma binIndex_some_iff (x : ℚ) (bins : List ℚ) (hmono : bins.Chain' (· < ·)) (i : ℕ) :
    binIndex x bins = some i ↔
      ∃ a b, bins[i]? = some a ∧ bins[i + 1]? = some b ∧ a ≤ x ∧ x < b := by
  induction bins generalizing i with
  | nil => simp [binIndex]
  | cons b0 rest ih =>
    cases rest with
    | nil =>
      simp only [binIndex]
      constructor
      · intro h; exact absurd h (by simp)
      · rintro ⟨a, b, -, hb, -⟩
        simp at hb
    | cons b1 rest2 =>
      by_cases hx : b0 ≤ x ∧ x < b1
      · simp only [binIndex, if_pos hx]
        cases i with
        | zero =>
          constructor
          · intro _
            exact ⟨b0, b1, by simp, by simp, hx.1, hx.2⟩
          · intro _
            rfl
        | succ j =>
          constructor
          · intro h; exact absurd h (by simp)
          · rintro ⟨a, b, ha, -, hax, -⟩
            rw [List.getElem?_cons_succ] at ha
            have hb1a : b1 ≤ a := chainLt_head_le (List.Chain'.tail hmono) ha
            exact absurd (lt_of_le_of_lt (hb1a.trans hax) hx.2) (lt_irrefl b1)
      · simp only [binIndex, if_neg hx]
        cases i with
        | zero =>
          simp only [List.getElem?_cons_zero, List.getElem?_cons_succ]
          constructor
          · intro h
            rcases Option.map_eq_some'.mp h with ⟨j, -, hj⟩
            exact absurd hj (by omega)
          · rintro ⟨a, b, ha, hb, hax, hxb⟩
            obtain rfl : a = b0 := by simpa using ha.symm
            obtain rfl : b = b1 := by simpa using hb.symm
            exact absurd ⟨hax, hxb⟩ hx
        | succ j =>
          constructor
          · intro h
            rcases Option.map_eq_some'.mp h with ⟨m, hm, hmj⟩
            have hmm : m = j := by omega
            subst hmm
            rcases (ih (List.Chain'.tail hmono) m).mp hm with ⟨a, b, ha, hb, hax, hxb⟩
            exact ⟨a, b, by simpa using ha, by simpa using hb, hax, hxb⟩
          · rintro ⟨a, b, ha, hb, hax, hxb⟩
            rw [List.getElem?_cons_succ] at ha hb
            have : binIndex x (b1 :: rest2) = some j :=
              (ih (List.Chain'.tail hmono) j).mpr ⟨a, b, ha, hb, hax, hxb⟩
            rw [this]; rfl

/-- C1: for the initial table, filling Age's missing entry with the
mean of the non-missing Ages (32) yields `[25, 32, 35, 40, 28]`, and
filling Salary's missing entry with the median of the non-missing
Salaries (65000) yields `[50000, 60000, 70000, 80000, 65000]`; the
non-missing entries are unchanged. -/
theorem fillna_mean_median_on_initial_table :
    mean (nonMissing (initialRows.map Row.age)) = 32 ∧
    (fillAge initialRows).map Row.age = [some 25, some 32, some 35, some 40, some 28] ∧
    median (nonMissing ((fillAge initialRows).map Row.salary)) = 65000 ∧
    (fillSalary (fillAge initialRows)).map Row.salary =
      [some 50000, some 60000, some 70000, some 80000, some 65000] := by
  refine ⟨?_, ?_, ?_, ?_⟩ <;>
    norm_num [fillSalary, fillAge, initialRows, mean, median, quantile, nonMissing,
      List.filterMap_cons, List.insertionSort, List.orderedInsert]

/-- C3: with strictly increasing boundaries, binning maps a value in
the half-open interval `[bins[i], bins[i+1])` (lower bound inclusive,
upper exclusive) to label `i`, maps values outside every interval to
the missing label, and on the script's Age column `[25,32,35,40,28]`
with boundaries `[0,25,35,50]` and labels Young/Adult/Senior yields
`[Adult, Adult, Senior, Senior, Adult]`. -/
theorem binning_halfopen_intervals (bins : List ℚ) (labels : List String) (x : ℚ)
    (hmono : bins.Chain' (· < ·)) :
    (∀ i a b, bins[i]? = some a → bins[i + 1]? = some b → a ≤ x → x < b →
      cut x bins labels = labels[i]?) ∧
    ((∀ i a b, bins[i]? = some a → bins[i + 1]? = some b → ¬(a ≤ x ∧ x < b)) →
      cut x bins labels = none) ∧
    List.map (fun a => cut a ageBins ageGroupLabels) [25, 32, 35, 40, 28] =
      [some "Adult", some "Adult", some "Senior", some "Senior", some "Adult"] := by
  refine ⟨?_, ?_, ?_⟩
  · intro i a b ha hb hax hxb
    have hbi : binIndex x bins = some i :=
      (binIndex_some_iff x bins hmono i).mpr ⟨a, b, ha, hb, hax, hxb⟩
    simp [cut, hbi]
  · intro hnone
    rcases hbi : binIndex x bins with _ | i
    · simp [cut, hbi]
    · rcases (binIndex_some_iff x bins hmono i).mp hbi with ⟨a, b, ha, hb, hax, hxb⟩
      exact absurd ⟨hax, hxb⟩ (hnone i a b ha hb)
  · norm_num [cut, binIndex, ageBins, ageGroupLabels]

/-- Witness for C3: the boundary value 25 falls in `[25, 35)` and is
labelled Adult. -/
theorem binning_halfopen_intervals_witness :
    cut 25 ageBins ageGroupLabels = some "Adult" := by
  have h := (binning_halfopen_intervals ageBins ageGroupLabels 25
      (by norm_num [ageBins, List.chain'_cons])).1 1 25 35
      (by norm_num [ageBins]) (by norm_num [ageBins]) (by norm_num) (by norm_num)
  simpa [ageGroupLabels] using h

/-- C5: melting produces exactly (input row count x number of value
columns) output rows, and contains the row (identifier, column name,
column value) for every input row and value column. -/
theorem melt_row_count {ρ ι μ : Type} (rows : List ρ) (idv : ρ → ι)
    (valueVars : List (String × (ρ → μ))) :
    (melt rows idv valueVars).length = rows.length * valueVars.length ∧
    ∀ v ∈ valueVars, ∀ r ∈ rows, (idv r, v.1, v.2 r) ∈ melt rows idv valueVars := by
  constructor
  · induction valueVars with
    | nil => simp [melt]
    | cons v vs ih =>
      have hcons : melt rows idv (v :: vs) =
          rows.map (fun r => (idv r, v.1, v.2 r)) ++ melt rows idv vs := by
        simp [melt]
      rw [hcons, List.length_append, List.length_map, ih, List.length_cons, Nat.mul_succ]
      omega
  · intro v hv r hr
    exact List.mem_flatMap.mpr ⟨v, hv, List.mem_map_of_mem _ hr⟩

/-- Witness for C5: a one-row, one-value-column melt has one output
row, which is the (identifier, column name, value) triple. -/
theorem melt_row_count_witness :
    (melt [0] id [("Age", id)] : List (ℕ × String × ℕ)).length = 1 * 1 ∧
    ((0 : ℕ), "Age", (0 : ℕ)) ∈ (melt [0] id [("Age", id)] : List (ℕ × String × ℕ)) := by
  have h := melt_row_count [0] (id : ℕ → ℕ) [("Age", (id : ℕ → ℕ))]
  exact ⟨h.1, h.2 ("Age", id) (by simp) 0 (by simp)⟩

/-- C10: after the two fill steps no entry of the table is missing, so
dropping rows with missing entries returns the filled five-row table
unchanged. -/
theorem dropna_after_fill_identity :
    (∀ r ∈ filledRows, r.age.isSome ∧ r.salary.isSome) ∧
    dropna filledRows = filledRows ∧
    filledRows.length = 5 := by
  have hfill : filledRows =
      [⟨"Alice", some 25, "New York", some 50000⟩,
       ⟨"Bob", some 32, "Los Angeles", some 60000⟩,
       ⟨"Charlie", some 35, "Chicago", some 70000⟩,
       ⟨"David", some 40, "Chicago", some 80000⟩,
       ⟨"Emma", some 28, "New York", some 65000⟩] := by
    norm_num [filledRows, fillSalary, fillAge, initialRows, mean, median, quantile,
      nonMissing, List.filterMap_cons, List.insertionSort, List.orderedInsert]
  rw [hfill]
  refine ⟨?_, ?_, rfl⟩
  · intro r hr
    simp only [List.mem_cons, List.not_mem_nil, or_false] at hr
    rcases hr with rfl | rfl | rfl | rfl | rfl <;> simp
  · simp [dropna]

lemma mem_dropDupAux {α : Type} [DecidableEq α] (seen l : List α) (x : α) :
    x ∈ dropDupAux seen l ↔ x ∈ l ∧ x ∉ seen := by
  induction l generalizing seen with
  | nil => simp [dropDupAux]
  | cons y ys ih =>
    by_cases hy : y ∈ seen
    · simp only [dropDupAux, if_pos hy, ih, List.mem_cons]
      constructor
      · rintro ⟨h1, h2⟩; exact ⟨Or.inr h1, h2⟩
      · rintro ⟨h1 | h1, h2⟩
        · exact absurd (h1 ▸ hy) h2
        · exact ⟨h1, h2⟩
    · simp only [dropDupAux, if_neg hy, List.mem_cons, ih, List.mem_cons, not_or]
      constructor
      · rintro (rfl | ⟨h1, h2, h3⟩)
        · exact ⟨Or.inl rfl, hy⟩
        · exact ⟨Or.inr h1, h3⟩
      · rintro ⟨rfl | h1, h2⟩
        · exact Or.inl rfl
        · by_cases hxy : x = y
          · exact Or.inl hxy
          · exact Or.inr ⟨h1, hxy, h2⟩

lemma nodup_dropDupAux {α : Type} [DecidableEq α] (seen l : List α) :
    (dropDupAux seen l).Nodup := by
  induction l generalizing seen with
  | nil => simp [dropDupAux]
  | cons y ys ih =>
    by_cases hy : y ∈ seen
    · simpa [dropDupAux, hy] using ih seen
    · simp only [dropDupAux, if_neg hy, List.nodup_cons]
      refine ⟨fun hmem => ?_, ih _⟩
      exact ((mem_dropDupAux _ _ _).mp hmem).2 (List.mem_cons_self y _)

lemma dropDupAux_sublist {α : Type} [DecidableEq α] (seen l : List α) :
    List.Sublist (dropDupAux seen l) l := by
  induction l generalizing seen with
  | nil => simp [dropDupAux]
  | cons y ys ih =>
    by_cases hy : y ∈ seen
    · rw [dropDupAux, if_pos hy]
      exact (ih seen).trans (List.sublist_cons_self y ys)
    · rw [dropDupAux, if_neg hy]
      exact List.Sublist.cons₂ y (ih (y :: seen))

lemma dropDupAux_of_nodup {α : Type} [DecidableEq α] {seen l : List α}
    (h : l.Nodup) (hd : ∀ x ∈ l, x ∉ seen) : dropDupAux seen l = l := by
  induction l generalizing seen with
  | nil => simp [dropDupAux]
  | cons y ys ih =>
    rw [dropDupAux, if_neg (hd y (List.mem_cons_self y ys))]
    rw [List.nodup_cons] at h
    refine congrArg (y :: ·) (ih h.2 ?_)
    intro x hx
    simp only [List.mem_cons, not_or]
    exact ⟨fun hxy => h.1 (hxy ▸ hx), hd x (List.mem_cons_of_mem y hx)⟩

lemma dropDupAux_eq_keepFirst {α : Type} [DecidableEq α] (seen l : List α) :
    dropDupAux seen l = keepFirstOccurrences (l.filter (fun y => decide (y ∉ seen))) := by
  induction l generalizing seen with
  | nil => simp [dropDupAux, keepFirstOccurrences]
  | cons y ys ih =>
    by_cases hy : y ∈ seen
    · rw [dropDupAux, if_pos hy, List.filter_cons_of_neg (by simpa using hy)]
      exact ih seen
    · rw [dropDupAux, if_neg hy, List.filter_cons_of_pos (by simpa using hy),
        keepFirstOccurrences, ih (y :: seen), List.filter_filter]
      refine congrArg (fun t => y :: keepFirstOccurrences t) (List.filter_congr ?_)
      intro a _
      simp [List.mem_cons, not_or, Bool.and_comm]

/-- C6: deduplication keeps exactly the first occurrence of each
distinct row (it coincides with the specification-level
`keepFirstOccurrences`), returns an order-preserving sublist with no
duplicate rows, and is idempotent. -/
theorem drop_duplicates_first_occurrences_idempotent {α : Type} [DecidableEq α]
    (l : List α) :
    dropDuplicates l = keepFirstOccurrences l ∧
    List.Sublist (dropDuplicates l) l ∧
    (dropDuplicates l).Nodup ∧
    dropDuplicates (dropDuplicates l) = dropDuplicates l := by
  have hspec : dropDuplicates l = keepFirstOccurrences l := by
    have h := dropDupAux_eq_keepFirst ([] : List α) l
    simpa [dropDuplicates] using h
  exact ⟨hspec, dropDupAux_sublist _ _, nodup_dropDupAux _ _,
    dropDupAux_of_nodup (nodup_dropDupAux _ _) (by simp)⟩

lemma leftJoin_cons {α β K : Type} [DecidableEq K] (a : α) (l : List α) (r : List β)
    (kl : α → K) (kr : β → K) :
    leftJoin (a :: l) r kl kr =
      (if (r.filter (fun b => decide (kr b = kl a))).isEmpty then [(a, (none : Option β))]
       else (r.filter (fun b => decide (kr b = kl a))).map (fun b => (a, some b))) ++
      leftJoin l r kl kr := by
  simp [leftJoin]

lemma block_countP {α β K : Type} [DecidableEq α] [DecidableEq K] (a c : α) (r : List β)
    (kl : α → K) (kr : β → K) :
    ((if (r.filter (fun b => decide (kr b = kl c))).isEmpty then [(c, (none : Option β))]
      else (r.filter (fun b => decide (kr b = kl c))).map (fun b => (c, some b))).countP
        (fun p => decide (p.1 = a))) =
      if c = a then max (r.filter (fun b => decide (kr b = kl a))).length 1 else 0 := by
  by_cases hca : c = a
  · subst hca
    by_cases hE : (r.filter (fun b => decide (kr b = kl c))).isEmpty
    · have hnil : r.filter (fun b => decide (kr b = kl c)) = [] := by
        simpa using hE
      rw [if_pos hE, if_pos rfl, hnil]
      simp [List.countP_cons]
    · rw [if_neg hE, if_pos rfl, List.countP_map]
      have hlen : (r.filter (fun b => decide (kr b = kl c))).countP
          ((fun p => decide (p.1 = c)) ∘ (fun b => (c, some b))) =
          (r.filter (fun b => decide (kr b = kl c))).length := by
        apply List.countP_eq_length.mpr
        intro bb _
        simp
      rw [hlen]
      have hpos : 1 ≤ (r.filter (fun b => decide (kr b = kl c))).length := by
        rcases hF : r.filter (fun b => decide (kr b = kl c)) with _ | ⟨x, xs⟩
        · exact absurd (by simp [hF]) hE
        · simp
      exact (Nat.max_eq_left hpos).symm
  · by_cases hE : (r.filter (fun b => decide (kr b = kl c))).isEmpty
    · rw [if_pos hE, if_neg hca]
      simp [List.countP_cons, hca]
    · rw [if_neg hE, if_neg hca, List.countP_map]
      apply List.countP_eq_zero.mpr
      intro bb _
      simp [hca]

lemma leftJoin_countP {α β K : Type} [DecidableEq α] [DecidableEq K]
    (l : List α) (r : List β) (kl : α → K) (kr : β → K) (a : α) :
    (leftJoin l r kl kr).countP (fun p => decide (p.1 = a)) =
      l.count a * max (r.filter (fun b => decide (kr b = kl a))).length 1 := by
  induction l with
  | nil => simp [leftJoin]
  | cons c l ih =>
    rw [leftJoin_cons, List.countP_append, ih, block_countP, List.count_cons]
    by_cases hca : c = a
    · subst hca
      simp
      ring
    · simp [hca]

lemma mem_leftJoin_some {α β K : Type} [DecidableEq K]
    {l : List α} {r : List β} {kl : α → K} {kr : β → K} {a : α} {b : β}
    (hmem : (a, some b) ∈ leftJoin l r kl kr) : a ∈ l ∧ b ∈ r ∧ kr b = kl a := by
  obtain ⟨c, hc, hp⟩ := List.mem_flatMap.mp hmem
  by_cases hE : (r.filter (fun b => decide (kr b = kl c))).isEmpty
  · rw [if_pos hE] at hp
    simp at hp
  · rw [if_neg hE] at hp
    obtain ⟨b2, hb2, heq⟩ := List.mem_map.mp hp
    injection heq with h1 h2
    subst h1
    injection h2 with h3
    subst h3
    refine ⟨hc, List.mem_of_mem_filter hb2, ?_⟩
    have hf := List.of_mem_filter hb2
    simpa using hf

lemma mem_leftJoin_none {α β K : Type} [DecidableEq K]
    {l : List α} {r : List β} {kl : α → K} {kr : β → K} {a : α}
    (hmem : (a, (none : Option β)) ∈ leftJoin l r kl kr) :
    a ∈ l ∧ (r.filter (fun b => decide (kr b = kl a))).length = 0 := by
  obtain ⟨c, hc, hp⟩ := List.mem_flatMap.mp hmem
  by_cases hE : (r.filter (fun b => decide (kr b = kl c))).isEmpty
  · rw [if_pos hE] at hp
    obtain rfl : a = c := by simpa [Prod.ext_iff] using hp
    have hnil : r.filter (fun b => decide (kr b = kl a)) = [] := by simpa using hE
    exact ⟨hc, by simp [hnil]⟩
  · rw [if_neg hE] at hp
    obtain ⟨b2, -, heq⟩ := List.mem_map.mp hp
    exact absurd (Prod.ext_iff.mp heq).2 (by simp)

/-- C4: a left row whose key matches k right rows appears exactly k
times in the left join (once with the missing placeholder when k = 0);
each attached right row really matches its left row's key and comes
from the right table; and a right row whose key matches no left row is
attached to no output row. -/
theorem left_join_fanout {α β K : Type} [DecidableEq α] [DecidableEq K]
    (l : List α) (r : List β) (kl : α → K) (kr : β → K) :
    (∀ a : α, (leftJoin l r kl kr).countP (fun p => decide (p.1 = a)) =
      l.count a * max (r.filter (fun b => decide (kr b = kl a))).length 1) ∧
    (∀ a b, (a, some b) ∈ leftJoin l r kl kr → a ∈ l ∧ b ∈ r ∧ kr b = kl a) ∧
    (∀ a, (a, (none : Option β)) ∈ leftJoin l r kl kr →
      a ∈ l ∧ (r.filter (fun b => decide (kr b = kl a))).length = 0) ∧
    (∀ b ∈ r, (∀ a ∈ l, kl a ≠ kr b) → ∀ p ∈ leftJoin l r kl kr, p.2 ≠ some b) := by
  refine ⟨leftJoin_countP l r kl kr, fun a b h => mem_leftJoin_some h,
    fun a h => mem_leftJoin_none h, ?_⟩
  rintro b hb hno ⟨pa, pb⟩ hp hp2
  cases hp2
  obtain ⟨hpal, -, hkey⟩ := mem_leftJoin_some hp
  exact hno pa hpal hkey.symm

/-- Witness for C4, on a numeric join: key 1 of the left table matches
two right rows and appears twice; an attached right row matches its
key; left key 2 is unmatched and appears with the placeholder; and the
unmatched right row (3, 12) is attached nowhere. -/
theorem left_join_fanout_witness :
    (leftJoin [1, 2] [(1, 10), (1, 11), (3, 12)] id Prod.fst).countP
        (fun p => decide (p.1 = 1)) =
      ([1, 2] : List ℕ).count 1 *
        max (([(1, 10), (1, 11), (3, 12)] : List (ℕ × ℕ)).filter
          (fun b => decide (b.1 = id 1))).length 1 ∧
    ((1, 10) ∈ ([(1, 10), (1, 11), (3, 12)] : List (ℕ × ℕ)) ∧ (1, 10).1 = id 1) ∧
    ((2 : ℕ) ∈ ([1, 2] : List ℕ) ∧
      (([(1, 10), (1, 11), (3, 12)] : List (ℕ × ℕ)).filter
        (fun b => decide (b.1 = id 2))).length = 0) ∧
    ((1 : ℕ), (some (1, 10) : Option (ℕ × ℕ))).2 ≠ some (3, 12) := by
  have h := left_join_fanout [1, 2] [(1, 10), (1, 11), (3, 12)] id Prod.fst
  refine ⟨h.1 1, ?_, ?_, ?_⟩
  · have h2 := h.2.1 1 (1, 10) (by decide)
    exact ⟨h2.2.1, h2.2.2⟩
  · exact h.2.2.1 2 (by decide)
  · exact h.2.2.2 (3, 12) (by decide) (by decide) (1, some (1, 10)) (by decide)

/-- C2: a value is flagged as an outlier iff it is strictly below
`Q1 - 1.5*IQR` or strictly above `Q3 + 1.5*IQR`, and the replacement
step maps each entry to the original column's median exactly when it
is flagged against the original column's bounds, leaving every other
entry unchanged. -/
theorem outlier_rule_and_median_replacement (l : List ℚ) (x y : ℚ) (i : ℕ)
    (h : l[i]? = some y) :
    (isOutlier l x ↔ (x < q1 l - 3/2 * (q3 l - q1 l) ∨ q3 l + 3/2 * (q3 l - q1 l) < x)) ∧
    (replaceOutliers l)[i]? = some (if isOutlier l y then median l else y) := by
  constructor
  · unfold isOutlier lowBound highBound iqr
    exact Iff.rfl
  · simp [replaceOutliers, List.getElem?_map, h]

/-- Witness for C2 at a concrete five-entry salary column. -/
theorem outlier_rule_and_median_replacement_witness :
    (isOutlier [50000, 65000, 70000, 80000, 65000] 50000 ↔
      (50000 < q1 [50000, 65000, 70000, 80000, 65000] -
          3/2 * (q3 [50000, 65000, 70000, 80000, 65000] -
            q1 [50000, 65000, 70000, 80000, 65000]) ∨
        q3 [50000, 65000, 70000, 80000, 65000] +
          3/2 * (q3 [50000, 65000, 70000, 80000, 65000] -
            q1 [50000, 65000, 70000, 80000, 65000]) < 50000)) ∧
    (replaceOutliers [50000, 65000, 70000, 80000, 65000])[0]? =
      some (if isOutlier [50000, 65000, 70000, 80000, 65000] 50000
        then median [50000, 65000, 70000, 80000, 65000] else 50000) :=
  outlier_rule_and_median_replacement [50000, 65000, 70000, 80000, 65000] 50000 50000 0 rfl

/-- C9: with the random draw abstracted as a permutation of the row
positions, sampling n of len rows returns exactly n distinct row
positions of the table when n is at most len, and fails with the range
error when n exceeds len. -/
theorem sample_n_distinct_or_rangeError {α : Type} (l : List α) (n : ℕ) (ord : List ℕ)
    (hperm : ord.Perm (List.range l.length)) :
    (n ≤ l.length →
      sample l n ord = Except.ok (ord.take n) ∧
      (ord.take n).length = n ∧ (ord.take n).Nodup ∧ ∀ i ∈ ord.take n, i < l.length) ∧
    (l.length < n → sample l n ord = Except.error SampleError.rangeError) := by
  constructor
  · intro hn
    have hlen : ord.length = l.length := by simpa using hperm.length_eq
    refine ⟨by simp [sample, hn], ?_, ?_, ?_⟩
    · rw [List.length_take, hlen]
      omega
    · exact ((hperm.nodup_iff).mpr (List.nodup_range _)).sublist (List.take_sublist n ord)
    · intro i hi
      exact List.mem_range.mp (hperm.subset (List.mem_of_mem_take hi))
  · intro hn
    simp [sample, Nat.not_le.mpr hn]

/-- Witness for C9: drawing 2 of the 5 initial rows with the draw
order 4, 2, 0, 1, 3 yields the two distinct positions 4 and 2. -/
theorem sample_n_distinct_or_rangeError_witness :
    sample initialRows 2 [4, 2, 0, 1, 3] = Except.ok [4, 2] ∧
    ([4, 2] : List ℕ).Nodup ∧ ∀ i ∈ ([4, 2] : List ℕ), i < initialRows.length := by
  have h := (sample_n_distinct_or_rangeError initialRows 2 [4, 2, 0, 1, 3]
    (by decide)).1 (by decide)
  exact ⟨h.1, h.2.2.1, h.2.2.2⟩

lemma decodeChars_encode (v : List Char) (ts : List PTok) :
    decodeChars v.length (v.map PTok.c ++ ts) = some (v, ts) := by
  induction v with
  | nil => rfl
  | cons ch rest ih => simp [decodeChars, ih]

lemma decodeCell_encode (c : Cell) (ts : List PTok) :
    decodeCell (encodeCell c ++ ts) = some (c, ts) := by
  cases c with
  | s v =>
    simp only [encodeCell, List.cons_append, List.append_assoc, decodeCell,
      decodeChars_encode, Option.map_some]
    cases v
    rfl
  | i m => rfl
  | f num den => rfl

lemma decodeCells_encode (r : List Cell) (ts : List PTok) :
    decodeCells r.length (r.flatMap encodeCell ++ ts) = some (r, ts) := by
  induction r with
  | nil => rfl
  | cons c rest ih =>
    simp [decodeCells, List.flatMap_cons, List.append_assoc, decodeCell_encode, ih]

lemma decodeRows_encode (rows : List (List Cell)) (ts : List PTok) :
    decodeRows rows.length (rows.flatMap encodeRow ++ ts) = some (rows, ts) := by
  induction rows with
  | nil => rfl
  | cons r rest ih =>
    simp only [List.flatMap_cons, encodeRow, List.cons_append, List.length_cons,
      decodeRows, List.append_eq, List.append_assoc]
    rw [decodeCells_encode]
    have ih2 : decodeRows rest.length ((List.map encodeRow rest).flatten ++ ts) =
        some (rest, ts) := ih
    simp [ih2]

set_option maxRecDepth 40000

/-- C8: loading what was serialized reproduces the table: the binary
format round-trips every table of cells exactly, and the text format
(header row, no index column) round-trips the script's saved table,
re-inferring each numeric field's type from its text.  The middle
conjuncts tie `savedRows` to the pipeline: the outlier step replaces
nothing on the filled Annual Salary column `[50000, 60000, 70000,
80000, 65000]`, the tax column is 0.8 times it, and `savedRows`
encodes exactly those two columns. -/
theorem serialization_roundtrip :
    (∀ rows : List (List Cell), fromPickle (toPickle rows) = some rows) ∧
    replaceOutliers (filledRows.map (fun r => r.salary.getD 0)) =
      [50000, 60000, 70000, 80000, 65000] ∧
    filledRows.map (fun r => r.salary.getD 0 * (4/5)) =
      [40000, 48000, 56000, 64000, 52000] ∧
    savedRows.map (fun r => r.getD 3 (Cell.i 0)) =
      [Cell.f 50000 1, Cell.f 60000 1, Cell.f 70000 1, Cell.f 80000 1, Cell.f 65000 1] ∧
    savedRows.map (fun r => r.getD 4 (Cell.i 0)) =
      [Cell.f 40000 1, Cell.f 48000 1, Cell.f 56000 1, Cell.f 64000 1, Cell.f 52000 1] ∧
    parseCsv (toCsv csvHeader savedRows) = some (csvHeader, savedRows) := by
  refine ⟨?_, ?_, ?_, by decide, by decide, by decide⟩
  · intro rows
    have h := decodeRows_encode rows []
    rw [List.append_nil] at h
    simp [fromPickle, toPickle, h]
  · have hcol : filledRows.map (fun r => r.salary.getD 0) =
        [50000, 60000, 70000, 80000, 65000] := by
      norm_num [filledRows, fillSalary, fillAge, initialRows, mean, median, quantile,
        nonMissing, List.filterMap_cons, List.insertionSort, List.orderedInsert]
    have ht1 : Int.toNat 1 = 1 := by decide
    have ht2 : Int.toNat 2 = 2 := by decide
    have ht3 : Int.toNat 3 = 3 := by decide
    rw [hcol]
    norm_num [replaceOutliers, isOutlier, lowBound, highBound, iqr, q1, q3, median,
      quantile, List.insertionSort, List.orderedInsert, ht1, ht2, ht3]
  · norm_num [filledRows, fillSalary, fillAge, initialRows, mean, median, quantile,
      nonMissing, List.filterMap_cons, List.insertionSort, List.orderedInsert]

lemma sorted_getD_mono {s : List ℚ} (hs : s.Sorted (· ≤ ·)) {i j : ℕ}
    (hij : i ≤ j) (hj : j < s.length) : s.getD i 0 ≤ s.getD j 0 := by
  have hi : i < s.length := Nat.lt_of_le_of_lt hij hj
  have hrel := hs.rel_get_of_le (show (⟨i, hi⟩ : Fin s.length) ≤ ⟨j, hj⟩ from hij)
  simpa [List.getD_eq_getElem?_getD, List.getElem?_eq_getElem, hi, hj] using hrel

lemma interp_mono {s : List ℚ} (hs : s.Sorted (· ≤ ·)) {h h2 : ℚ}
    (h0 : 0 ≤ h) (hhh : h ≤ h2) (hn : h2 ≤ (s.length : ℚ) - 1) :
    s.getD (⌊h⌋).toNat 0 + (h - (⌊h⌋ : ℚ)) *
      (s.getD (min ((⌊h⌋).toNat + 1) (s.length - 1)) 0 - s.getD (⌊h⌋).toNat 0) ≤
    s.getD (⌊h2⌋).toNat 0 + (h2 - (⌊h2⌋ : ℚ)) *
      (s.getD (min ((⌊h2⌋).toNat + 1) (s.length - 1)) 0 - s.getD (⌊h2⌋).toNat 0) := by
  have hfl0 : 0 ≤ ⌊h⌋ := Int.floor_nonneg.mpr h0
  have hfl02 : 0 ≤ ⌊h2⌋ := Int.floor_nonneg.mpr (le_trans h0 hhh)
  have hn1 : 1 ≤ s.length := by
    by_contra hcon
    have hz : s.length = 0 := by omega
    rw [hz] at hn
    norm_num at hn
    linarith
  have hk2n : ⌊h2⌋ ≤ (s.length : ℤ) - 1 := by
    have hf := Int.floor_le_floor (α := ℚ) hn
    have hcast : (((s.length : ℤ) - 1 : ℤ) : ℚ) = (s.length : ℚ) - 1 := by
      push_cast
      ring
    rw [← hcast, Int.floor_intCast] at hf
    exact hf
  have hkmono : ⌊h⌋ ≤ ⌊h2⌋ := Int.floor_le_floor hhh
  have hk2len : (⌊h2⌋).toNat ≤ s.length - 1 := by omega
  have hklen : (⌊h⌋).toNat ≤ s.length - 1 := by omega
  have hfr0 : 0 ≤ h - (⌊h⌋ : ℚ) := by
    have := Int.floor_le h
    linarith
  have hfr1 : h - (⌊h⌋ : ℚ) < 1 := by
    have := Int.lt_floor_add_one h
    linarith
  have hfr02 : 0 ≤ h2 - (⌊h2⌋ : ℚ) := by
    have := Int.floor_le h2
    linarith
  have hab : s.getD (⌊h⌋).toNat 0 ≤ s.getD (min ((⌊h⌋).toNat + 1) (s.length - 1)) 0 :=
    sorted_getD_mono hs (by omega) (by omega)
  have hab2 : s.getD (⌊h2⌋).toNat 0 ≤ s.getD (min ((⌊h2⌋).toNat + 1) (s.length - 1)) 0 :=
    sorted_getD_mono hs (by omega) (by omega)
  rcases Nat.lt_or_ge (⌊h⌋).toNat (⌊h2⌋).toNat with hlt | hge
  · have hmid : s.getD (min ((⌊h⌋).toNat + 1) (s.length - 1)) 0 ≤ s.getD (⌊h2⌋).toNat 0 :=
      sorted_getD_mono hs (by omega) (by omega)
    nlinarith [hab, hab2, hmid, hfr0, hfr1, hfr02]
  · have hkk : (⌊h⌋).toNat = (⌊h2⌋).toNat := by omega
    have hfl : ⌊h⌋ = ⌊h2⌋ := by omega
    rw [← hkk, ← hfl]
    nlinarith [hab, hfr0, hfr1]

lemma quantile_eq_interp (l : List ℚ) (q : ℚ) :
    quantile l q =
      (List.insertionSort (· ≤ ·) l).getD
          (⌊(((List.insertionSort (· ≤ ·) l).length : ℚ) - 1) * q⌋).toNat 0 +
      ((((List.insertionSort (· ≤ ·) l).length : ℚ) - 1) * q -
        (⌊(((List.insertionSort (· ≤ ·) l).length : ℚ) - 1) * q⌋ : ℚ)) *
        ((List.insertionSort (· ≤ ·) l).getD
            (min ((⌊(((List.insertionSort (· ≤ ·) l).length : ℚ) - 1) * q⌋).toNat + 1)
              ((List.insertionSort (· ≤ ·) l).length - 1)) 0 -
         (List.insertionSort (· ≤ ·) l).getD
            (⌊(((List.insertionSort (· ≤ ·) l).length : ℚ) - 1) * q⌋).toNat 0) := rfl

lemma quantile_mono (l : List ℚ) {p q : ℚ} (hp0 : 0 ≤ p) (hpq : p ≤ q) (hq1 : q ≤ 1) :
    quantile l p ≤ quantile l q := by
  have hs : (List.insertionSort (· ≤ ·) l).Sorted (· ≤ ·) := List.sorted_insertionSort _ l
  rcases Nat.eq_zero_or_pos (List.insertionSort (· ≤ ·) l).length with hn0 | hn1
  · have hnil : List.insertionSort (· ≤ ·) l = [] := List.length_eq_zero.mp hn0
    rw [quantile_eq_interp, quantile_eq_interp, hnil]
    simp
  · have hlen1 : (1 : ℚ) ≤ ((List.insertionSort (· ≤ ·) l).length : ℚ) := by
      exact_mod_cast hn1
    rw [quantile_eq_interp, quantile_eq_interp]
    apply interp_mono hs
    · exact mul_nonneg (by linarith) hp0
    · exact mul_le_mul_of_nonneg_left hpq (by linarith)
    · have hone := mul_le_of_le_one_right
        (show (0 : ℚ) ≤ ((List.insertionSort (· ≤ ·) l).length : ℚ) - 1 by linarith) hq1
      linarith

lemma low_le_median_le_high (l : List ℚ) :
    lowBound l ≤ median l ∧ median l ≤ highBound l := by
  have h14 : quantile l (1/4) ≤ quantile l (1/2) :=
    quantile_mono l (by norm_num) (by norm_num) (by norm_num)
  have h24 : quantile l (1/2) ≤ quantile l (3/4) :=
    quantile_mono l (by norm_num) (by norm_num) (by norm_num)
  unfold lowBound highBound iqr q1 q3 median
  constructor <;> linarith

/-- C7 (amended): after the replacement step every entry of the column
lies within the original detection bounds — replaced entries equal the
original median, which sits between the original quartiles — so
re-running detection against the original, pre-replacement bounds
flags nothing.  (Re-running the full detection with bounds recomputed
on the new column can still flag values; see the counterexample.) -/
theorem replaced_column_within_original_bounds (l : List ℚ) :
    ∀ x ∈ replaceOutliers l, lowBound l ≤ x ∧ x ≤ highBound l := by
  intro x hx
  rcases List.mem_map.mp hx with ⟨y, hy, rfl⟩
  by_cases hout : isOutlier l y
  · simp only [if_pos hout]
    exact low_le_median_le_high l
  · simp only [if_neg hout]
    unfold isOutlier at hout
    push_neg at hout
    exact ⟨hout.1, hout.2⟩

/-- Witness for C7's amended claim on the singleton column. -/
theorem replaced_column_within_original_bounds_witness :
    lowBound [0] ≤ 0 ∧ (0 : ℚ) ≤ highBound [0] := by
  have hrep : replaceOutliers [0] = [0] := by
    norm_num [replaceOutliers, isOutlier, lowBound, highBound, iqr, q1, q3, median,
      quantile, List.insertionSort, List.orderedInsert]
  exact replaced_column_within_original_bounds [0] 0 (by rw [hrep]; exact List.mem_singleton_self 0)

/-- Counterexample for C7 as stated: on the column
`[0, 1, 0, 1, 0, 1, 19/5, 100]` the replacement step overwrites only
100 with the median 1, and re-running the IQR detection on the result
flags 19/5 although the recomputed IQR is 1, a non-degenerate
distribution.  The re-run outlier set is therefore not empty. -/
theorem rerun_outlier_detection_nonempty :
    0 < iqr (replaceOutliers cexList) ∧
    detectOutliers (replaceOutliers cexList) ≠ [] := by
  have ht1 : Int.toNat 1 = 1 := by decide
  have ht3 : Int.toNat 3 = 3 := by decide
  have ht5 : Int.toNat 5 = 5 := by decide
  have hrep : replaceOutliers cexList = [0, 1, 0, 1, 0, 1, 19/5, 1] := by
    norm_num [replaceOutliers, cexList, isOutlier, lowBound, highBound, iqr, q1, q3,
      median, quantile, List.insertionSort, List.orderedInsert, ht1, ht3, ht5]
  rw [hrep]
  constructor
  · norm_num [iqr, q1, q3, quantile, List.insertionSort, List.orderedInsert,
      ht1, ht3, ht5]
  · norm_num [detectOutliers, isOutlier, lowBound, highBound, iqr, q1, q3, median,
      quantile, List.insertionSort, List.orderedInsert, List.filter, ht1, ht3, ht5]
